import Mathlib

/-!
Shallow embedding of the mcbe-database repository (src/src/Document.ts, the chunked
variant at lines 99-298, which all claims cite) together with the external
collaborators it talks to: the dynamic-property store of the owner (world or
entity), JavaScript string coercion, and the JSON builtins.

JavaScript strings are modelled as lists of characters; the property store is an
insertion-ordered association list (JavaScript objects and the Minecraft
dynamic-property store enumerate properties in insertion order, updates keep the
original position, deletions remove the entry).
-/

namespace McbeDatabase

/-- JavaScript strings, modelled as lists of characters. -/
abbrev JStr := List Char

/-- Decimal digit character for a digit value, as produced by JavaScript
number-to-string conversion (digits fed to it are always below ten). -/
def digitChar (d : Nat) : Char :=
  if d = 0 then '0' else if d = 1 then '1' else if d = 2 then '2'
  else if d = 3 then '3' else if d = 4 then '4' else if d = 5 then '5'
  else if d = 6 then '6' else if d = 7 then '7' else if d = 8 then '8' else '9'

/-- Decimal representation of a natural number, as produced by JavaScript template
literal interpolation of the chunk counter in Document.setEncoded (line 169). -/
def natToDigits (n : Nat) : JStr :=
  if n = 0 then ['0'] else ((Nat.digits 10 n).map digitChar).reverse

/-- Chunk property name: the template literal key_chunkId of Document.setEncoded
(src/src/Document.ts line 169). -/
def chunkName (key : JStr) (chunkId : Nat) : JStr :=
  key ++ '_' :: natToDigits chunkId

/-- Nonempty all-digit string: the regex fragment backslash-d-plus. -/
def isDigitsStr (s : JStr) : Bool :=
  !s.isEmpty && s.all Char.isDigit

/-- Models keyPattern.test(propId) in Document.getChunkIds (lines 174-180), where
keyPattern is built as an anchored regex from the key escaped by escapeRegExp
(lines 103-105). escapeRegExp escapes every regex metacharacter, so the escaped
key matches itself literally; the anchored pattern therefore tests that the
property id is exactly the key, then an underscore, then one or more digits. -/
def chunkPatternTest (key propId : JStr) : Bool :=
  (List.take key.length propId == key) &&
    (match List.drop key.length propId with
     | '_' :: rest => isDigitsStr rest
     | _ => false)

/-- Raw dynamic-property values of the external store. The Minecraft API can hold
strings, booleans and numbers; JavaScript number-to-string conversion is modelled
for integral values only, which is all the development uses. -/
inductive PropValue where
  | pstr (s : JStr)
  | pbool (b : Bool)
  | pnum (n : Int)
deriving DecidableEq

/-- The external dynamic-property store of one owner: an insertion-ordered list of
named properties. -/
abbrev Store := List (JStr × PropValue)

/-- Collaborator operation owner.getDynamicPropertyIds(): all property names in
the enumeration (insertion) order of the store. -/
def getDynamicPropertyIds (s : Store) : List JStr :=
  s.map Prod.fst

/-- Collaborator operation owner.getDynamicProperty(name). -/
def getDynamicProperty (s : Store) (name : JStr) : Option PropValue :=
  (s.find? (fun e => e.1 == name)).map Prod.snd

/-- Collaborator operation owner.setDynamicProperty(name, v): an undefined value
deletes the property, otherwise an existing property is updated in place and a
new one is appended at the end of the enumeration order. -/
def setDynamicProperty (s : Store) (name : JStr) (v : Option PropValue) : Store :=
  match v with
  | none => s.filter (fun e => e.1 != name)
  | some w =>
      if s.any (fun e => e.1 == name) then
        s.map (fun e => if e.1 == name then (name, w) else e)
      else
        s ++ [(name, w)]

/-- Document.MAX_DYNAMIC_PROPERTY_SIZE (line 119). -/
def MAX_DYNAMIC_PROPERTY_SIZE : Nat := 32767

/-- Document.getChunkIds (lines 174-180): the property ids matching the anchored
chunk pattern of the key, in store enumeration order. -/
def getChunkIds (s : Store) (key : JStr) : List JStr :=
  (getDynamicPropertyIds s).filter (fun propId => chunkPatternTest key propId)

/-- JavaScript ToString coercion as applied by the expression data + value inside
the reduce of Document.getEncoded (lines 188-191): the seed is the empty string,
so the left operand is always a string and the right operand is coerced. A
missing property prints as undefined, booleans as true or false, an integral
number in decimal. -/
def jsCoerce (v : Option PropValue) : JStr :=
  match v with
  | none => ['u', 'n', 'd', 'e', 'f', 'i', 'n', 'e', 'd']
  | some (.pstr s) => s
  | some (.pbool true) => ['t', 'r', 'u', 'e']
  | some (.pbool false) => ['f', 'a', 'l', 's', 'e']
  | some (.pnum n) =>
      if n < 0 then '-' :: natToDigits n.natAbs else natToDigits n.natAbs

/-- Document.getEncoded (lines 182-193): undefined when no chunk id matches,
otherwise the reduce concatenating the raw chunk values in the order returned by
getChunkIds. Because the reduce seed is a string, the result is always a string,
whatever the raw values are. -/
def getEncoded (s : Store) (key : JStr) : Option JStr :=
  let ids := getChunkIds s key
  if ids.isEmpty then none
  else some (ids.foldl (fun data id => data ++ jsCoerce (getDynamicProperty s id)) [])

/-- Document.delete (lines 253-257): remove every property whose id matches the
chunk pattern of the key. -/
def jsDelete (s : Store) (key : JStr) : Store :=
  (getChunkIds s key).foldl (fun st id => setDynamicProperty st id none) s

/-- The chunk-writing loop of Document.setEncoded (lines 155-171), with the
chunkStart / chunkEnd bookkeeping expressed as take / drop on the remaining
suffix of the encoded value: chunk = encodedValue.slice(chunkStart, chunkEnd)
with chunkEnd = min(length, chunkStart + maxSize). The chunk size is the
configuration constant MAX_DYNAMIC_PROPERTY_SIZE in the code; it is a parameter
here so that statements cover every positive size. The loop would not terminate
on size zero (the code never calls it that way); the model returns the store
unchanged in that impossible case. -/
def setEncodedChunks (maxSize : Nat) (s : Store) (key : JStr) (rest : JStr)
    (chunkId : Nat) : Store :=
  if rest.isEmpty || maxSize == 0 then s
  else
    setEncodedChunks maxSize
      (setDynamicProperty s (chunkName key chunkId) (some (.pstr (rest.take maxSize))))
      key (rest.drop maxSize) (chunkId + 1)
termination_by rest.length
decreasing_by
  rename_i h
  simp only [Bool.or_eq_true, List.isEmpty_iff, beq_iff_eq, not_or] at h
  have h1 : 0 < rest.length := List.length_pos.mpr h.1
  have h2 : 0 < maxSize := Nat.pos_of_ne_zero h.2
  simp only [List.length_drop]
  omega

/-- Document.setEncoded (lines 150-172): delete all existing chunks of the key
first, then write the chunks of the new encoded value. -/
def setEncoded (maxSize : Nat) (s : Store) (key : JStr) (encodedValue : JStr) : Store :=
  setEncodedChunks maxSize (jsDelete s key) key encodedValue 0

/-- ChunkCodec split: consecutive non-overlapping slices of length at most
maxChunkSize, in original order. This is the chunk sequence produced by the
slicing loop of Document.setEncoded, detached from the store writes. -/
def split (maxChunkSize : Nat) (v : JStr) : List JStr :=
  if v.isEmpty || maxChunkSize == 0 then []
  else v.take maxChunkSize :: split maxChunkSize (v.drop maxChunkSize)
termination_by v.length
decreasing_by
  rename_i h
  simp only [Bool.or_eq_true, List.isEmpty_iff, beq_iff_eq, not_or] at h
  have h1 : 0 < v.length := List.length_pos.mpr h.1
  have h2 : 0 < maxChunkSize := Nat.pos_of_ne_zero h.2
  simp only [List.length_drop]
  omega

/-- ChunkCodec join: concatenation of the chunks in order, as performed by the
reduce of Document.getEncoded with an empty-string seed. -/
def join (chunks : List JStr) : JStr :=
  chunks.foldl (fun data c => data ++ c) []

/-- JavaScript values, as far as the codec plumbing needs them. -/
inductive JsValue where
  | vstr (s : JStr)
  | vnum (n : Int)
  | vbool (b : Bool)
  | vnull
  | vundef
deriving DecidableEq

/-- Nullish test: the semantics of the JavaScript ?? operator. -/
def isNullish : JsValue → Bool
  | .vnull => true
  | .vundef => true
  | _ => false

/-- Failures Document.get can raise: the defensive expected-string throw
(lines 210-212) and a SyntaxError thrown by JSON.parse on the joined string. -/
inductive GetError where
  | expectedString
  | syntaxError
deriving DecidableEq

/-- The failure Document.set can raise: the encoded value was not a string
(lines 227-230). -/
inductive SetError where
  | encodeError
deriving DecidableEq

/-- The decode step of Document.get (line 208):
decoder?.(encodedValue, key) ?? JSON.parse(encodedValue).
The parse argument models the external JSON.parse builtin, returning none when it
throws a SyntaxError; custom decoders are modelled as total functions. When the
decoder is absent, or returns a nullish value, the joined string is parsed. -/
def jsDecode (parse : JStr → Option JsValue) (decoder : Option (JStr → JsValue))
    (encodedValue : JStr) : Except GetError JsValue :=
  let r := match decoder with
    | some d => d encodedValue
    | none => JsValue.vundef
  if isNullish r then
    match parse encodedValue with
    | some v => .ok v
    | none => .error .syntaxError
  else .ok r

/-- Document.get (lines 199-213). The typeof string test on line 207 always
succeeds, because getEncoded coerces every raw chunk value with string
concatenation; the expected-string throw is therefore unreachable and does not
appear in the result. -/
def jsGet (parse : JStr → Option JsValue) (s : Store) (key : JStr)
    (decoder : Option (JStr → JsValue)) : Except GetError (Option JsValue) :=
  match getEncoded s key with
  | none => .ok none
  | some encodedValue => (jsDecode parse decoder encodedValue).map some

/-- The encode step of Document.set (line 225):
encoder?.(value, key) ?? JSON.stringify(value).
The stringify argument models the external JSON.stringify builtin; none models a
JavaScript undefined result, which then flows into the typeof check. When the
encoder is absent, or returns a nullish value, the stringify result is used. -/
def jsEncode (stringify : JsValue → Option JStr) (encoder : Option (JsValue → JsValue))
    (value : JsValue) : JsValue :=
  let stringified : JsValue := match stringify value with
    | some s => .vstr s
    | none => .vundef
  match encoder with
  | some e => let r := e value; if isNullish r then stringified else r
  | none => stringified

/-- Document.set (lines 220-233): encode, throw when the encoded value is not a
string (before touching the store), otherwise hand the string to setEncoded. The
returned pair is the raised error, if any, together with the store state when the
call returns or throws. -/
def jsSet (maxSize : Nat) (stringify : JsValue → Option JStr) (s : Store)
    (key : JStr) (value : JsValue) (encoder : Option (JsValue → JsValue)) :
    Option SetError × Store :=
  match jsEncode stringify encoder value with
  | .vstr encodedValue => (none, setEncoded maxSize s key encodedValue)
  | _ => (some .encodeError, s)

/-- Index of the last underscore in a property id: id.lastIndexOf("_") in
Document.keys (line 266), none standing for the -1 result. -/
def lastIndexOfUnderscore : JStr → Option Nat
  | [] => none
  | c :: rest =>
      match lastIndexOfUnderscore rest with
      | some i => some (i + 1)
      | none => if c = '_' then some 0 else none

/-- The per-id step of Document.keys (lines 266-269): skip ids without an
underscore, otherwise keep the prefix before the last underscore,
id.slice(0, idSeperatorIdx). -/
def stripChunkSuffix (id : JStr) : Option JStr :=
  (lastIndexOfUnderscore id).map (fun i => id.take i)

/-- The loop of Document.keys (lines 262-275), carrying the seen-set of already
yielded keys. -/
def jsKeysAux : List JStr → List JStr → List JStr
  | _, [] => []
  | seen, id :: rest =>
      match stripChunkSuffix id with
      | none => jsKeysAux seen rest
      | some key =>
          if key ∈ seen then jsKeysAux seen rest
          else key :: jsKeysAux (key :: seen) rest

/-- Document.keys (lines 262-275): the list of keys the generator yields, in
order, recomputed from the current store state. -/
def jsKeys (s : Store) : List JStr :=
  jsKeysAux [] (getDynamicPropertyIds s)

/-- Specification-side description of the keys order: the first occurrence of
each distinct element, in order of first appearance. -/
def firstOccurrences : List JStr → List JStr
  | [] => []
  | x :: xs => x :: firstOccurrences (xs.filter (fun y => y != x))
termination_by l => l.length
decreasing_by
  exact Nat.lt_succ_of_le (List.length_filter_le _ _)

/-- The store entries the loop of setEncoded appends when it starts from a store
holding no chunk of the key: chunk names paired with the chunk slices. -/
def chunkEntries (m : Nat) (key : JStr) (rest : JStr) (chunkId : Nat) : Store :=
  if rest.isEmpty || m == 0 then []
  else (chunkName key chunkId, PropValue.pstr (rest.take m))
    :: chunkEntries m key (rest.drop m) (chunkId + 1)
termination_by rest.length
decreasing_by
  rename_i h
  simp only [Bool.or_eq_true, List.isEmpty_iff, beq_iff_eq, not_or] at h
  have h1 : 0 < rest.length := List.length_pos.mpr h.1
  have h2 : 0 < m := Nat.pos_of_ne_zero h.2
  simp only [List.length_drop]
  omega

/-! ### The per-owner instance cache -/

/-- Owners a document can be bound to: the world singleton or an entity with a
stable string id. -/
inductive Owner where
  | world
  | entity (id : JStr)
deriving DecidableEq

/-- The process-wide mutable state behind Document.from: the
ownerIdDocumentMap (line 112), the worldDocument constant (line 293, an Option
because it is undefined while the module initializer is still running), and an
allocation counter modelling JavaScript object identity — new Document(owner)
returns the next fresh number. -/
structure CacheState where
  cache : List (JStr × Nat)
  worldDoc : Option Nat
  nextId : Nat
deriving DecidableEq

/-- JavaScript Map.get. -/
def mapGet (m : List (JStr × Nat)) (k : JStr) : Option Nat :=
  (m.find? (fun e => e.1 == k)).map Prod.snd

/-- JavaScript Map.set: update in place or append. -/
def mapSet (m : List (JStr × Nat)) (k : JStr) (v : Nat) : List (JStr × Nat) :=
  if m.any (fun e => e.1 == k) then
    m.map (fun e => if e.1 == k then (k, v) else e)
  else m ++ [(k, v)]

/-- JavaScript Map.delete. -/
def mapDelete (m : List (JStr × Nat)) (k : JStr) : List (JStr × Nat) :=
  m.filter (fun e => e.1 != k)

/-- Document.from (lines 133-148): the world owner gets the worldDocument
constant (or a fresh, uncached instance while that constant is still
undefined during module initialization); an entity owner gets the cached
instance for its id, a fresh instance being created and cached on a miss. -/
def docFrom : Owner → CacheState → Nat × CacheState
  | .world, st =>
      match st.worldDoc with
      | some d => (d, st)
      | none => (st.nextId, { st with nextId := st.nextId + 1 })
  | .entity eid, st =>
      match mapGet st.cache eid with
      | some d => (d, st)
      | none =>
          (st.nextId,
            { st with
                cache := mapSet st.cache eid st.nextId
                nextId := st.nextId + 1 })

/-- Module initialization (line 293): const worldDocument = Document.from(world),
starting from an empty cache and an undefined worldDocument. -/
def moduleInit : CacheState :=
  let r := docFrom .world { cache := [], worldDoc := none, nextId := 0 }
  { r.2 with worldDoc := some r.1 }

/-- The entityRemove.subscribe handler (lines 296-298):
ownerIdDocumentMap.delete(ev.removedEntityId). -/
def evictEntity (eid : JStr) (st : CacheState) : CacheState :=
  { st with cache := mapDelete st.cache eid }

/-- Well-formedness of the cache state: every cached document was allocated
before the next allocation number. This holds for every state reachable from
moduleInit. -/
def CacheWF (st : CacheState) : Prop :=
  ∀ e ∈ st.cache, e.2 < st.nextId

/-! ### Decimal digits and chunk names -/

lemma digitChar_isDigit (d : Nat) : (digitChar d).isDigit = true := by
  unfold digitChar
  repeat' split
  all_goals decide

lemma isDigit_ne_underscore {c : Char} (h : c.isDigit = true) : c ≠ '_' := by
  intro hc
  subst hc
  exact absurd h (by decide)

lemma digitChar_injOn :
    ∀ d1, d1 < 10 → ∀ d2, d2 < 10 → digitChar d1 = digitChar d2 → d1 = d2 := by
  decide

lemma natToDigits_zero : natToDigits 0 = ['0'] := by
  simp [natToDigits]

lemma natToDigits_of_ne_zero {n : Nat} (h : n ≠ 0) :
    natToDigits n = ((Nat.digits 10 n).map digitChar).reverse := by
  simp [natToDigits, h]

lemma natToDigits_ne_nil (n : Nat) : natToDigits n ≠ [] := by
  unfold natToDigits
  split
  · simp
  · rename_i h
    have := (@Nat.digits_ne_nil_iff_ne_zero 10 n).mpr h
    simpa using this

lemma natToDigits_all_digit {n : Nat} : ∀ c ∈ natToDigits n, c.isDigit = true := by
  unfold natToDigits
  split
  · intro c hc
    simp only [List.mem_singleton] at hc
    subst hc
    decide
  · intro c hc
    simp only [List.mem_reverse, List.mem_map] at hc
    obtain ⟨d, _, rfl⟩ := hc
    exact digitChar_isDigit d

lemma map_digitChar_inj {l1 : List Nat} :
    ∀ {l2 : List Nat}, (∀ x ∈ l1, x < 10) → (∀ x ∈ l2, x < 10) →
      l1.map digitChar = l2.map digitChar → l1 = l2 := by
  induction l1 with
  | nil =>
    intro l2 _ _ h
    cases l2 with
    | nil => rfl
    | cons b t => simp at h
  | cons a t ih =>
    intro l2 h1 h2 h
    cases l2 with
    | nil => simp at h
    | cons b t2 =>
      simp only [List.map_cons, List.cons.injEq] at h
      have ha : a < 10 := h1 a (by simp)
      have hb : b < 10 := h2 b (by simp)
      obtain rfl : a = b := digitChar_injOn a ha b hb h.1
      rw [ih (fun x hx => h1 x (by simp [hx])) (fun x hx => h2 x (by simp [hx])) h.2]

lemma natToDigits_ne_zero_lit {n : Nat} (h : n ≠ 0) : natToDigits n ≠ ['0'] := by
  intro hcontra
  rw [natToDigits_of_ne_zero h] at hcontra
  have h2 : (Nat.digits 10 n).map digitChar = ['0'] := by
    have := congrArg List.reverse hcontra
    simpa using this
  have hne : Nat.digits 10 n ≠ [] := (@Nat.digits_ne_nil_iff_ne_zero 10 n).mpr h
  obtain ⟨d, hd⟩ : ∃ d, Nat.digits 10 n = [d] := by
    cases hds : Nat.digits 10 n with
    | nil => exact absurd hds hne
    | cons d t =>
      cases t with
      | nil => exact ⟨d, rfl⟩
      | cons e t2 => rw [hds] at h2; simp at h2
  rw [hd] at h2
  simp only [List.map_cons, List.map_nil, List.cons.injEq, and_true] at h2
  have hdlt : d < 10 :=
    Nat.digits_lt_base (by norm_num) (by rw [hd]; exact List.mem_singleton_self d)
  have hd0 : d = 0 := digitChar_injOn d hdlt 0 (by norm_num) (by simpa [digitChar] using h2)
  have hn' := Nat.ofDigits_digits 10 n
  rw [hd] at hn'
  simp [Nat.ofDigits_cons, Nat.ofDigits_nil] at hn'
  exact h (by omega)

lemma natToDigits_inj : ∀ {m n : Nat}, natToDigits m = natToDigits n → m = n := by
  intro m n h
  by_cases hm : m = 0 <;> by_cases hn : n = 0
  · rw [hm, hn]
  · exact absurd (by rw [← h, hm, natToDigits_zero]) (natToDigits_ne_zero_lit hn)
  · exact absurd (by rw [h, hn, natToDigits_zero]) (natToDigits_ne_zero_lit hm)
  · rw [natToDigits_of_ne_zero hm, natToDigits_of_ne_zero hn] at h
    have h2 := List.reverse_injective h
    have h3 : Nat.digits 10 m = Nat.digits 10 n :=
      map_digitChar_inj (fun x hx => Nat.digits_lt_base (by norm_num) hx)
        (fun x hx => Nat.digits_lt_base (by norm_num) hx) h2
    have h4 := congrArg (Nat.ofDigits 10) h3
    simpa [Nat.ofDigits_digits] using h4

lemma chunkName_injOn_index {key : JStr} {i j : Nat}
    (h : chunkName key i = chunkName key j) : i = j := by
  unfold chunkName at h
  have h2 := List.append_cancel_left h
  simp only [List.cons.injEq, true_and] at h2
  exact natToDigits_inj h2

/-! ### The chunk pattern -/

lemma isDigitsStr_iff {s : JStr} :
    isDigitsStr s = true ↔ s ≠ [] ∧ ∀ c ∈ s, c.isDigit = true := by
  unfold isDigitsStr
  cases s with
  | nil => simp
  | cons a t => simp [List.all_eq_true]

lemma chunkPatternTest_iff {key n : JStr} :
    chunkPatternTest key n = true ↔
      ∃ d, d ≠ [] ∧ (∀ c ∈ d, c.isDigit = true) ∧ n = key ++ '_' :: d := by
  unfold chunkPatternTest
  constructor
  · intro h
    simp only [Bool.and_eq_true, beq_iff_eq] at h
    obtain ⟨h1, h2⟩ := h
    have hn : n = key ++ List.drop key.length n := by
      conv_lhs => rw [← List.take_append_drop key.length n]
      rw [h1]
    rcases hdrop : List.drop key.length n with _ | ⟨c, rest⟩
    · rw [hdrop] at h2
      simp at h2
    · rw [hdrop] at h2
      split at h2
      · rename_i heq
        simp only [List.cons.injEq] at heq
        obtain ⟨hc, hrest⟩ := heq
        subst hc
        subst hrest
        rw [isDigitsStr_iff] at h2
        exact ⟨rest, h2.1, h2.2, by rw [hn, hdrop]⟩
      · simp at h2
  · rintro ⟨d, hd, hdigits, rfl⟩
    simp only [Bool.and_eq_true, beq_iff_eq]
    constructor
    · rw [List.take_left]
    · rw [List.drop_left]
      split
      · rename_i rest heq
        simp only [List.cons.injEq, true_and] at heq
        subst heq
        rw [isDigitsStr_iff]
        exact ⟨hd, hdigits⟩
      · rename_i hne
        exact absurd rfl (hne d)

lemma chunkPatternTest_chunkName (key : JStr) (i : Nat) :
    chunkPatternTest key (chunkName key i) = true :=
  chunkPatternTest_iff.mpr
    ⟨natToDigits i, natToDigits_ne_nil i, fun c hc => natToDigits_all_digit c hc, rfl⟩

lemma takeWhile_append_of_all {p : Char → Bool} :
    ∀ (l : JStr) (c : Char) (r : JStr), (∀ x ∈ l, p x = true) → p c = false →
      (l ++ c :: r).takeWhile p = l := by
  intro l c r hl hc
  induction l with
  | nil => simp [List.takeWhile, hc]
  | cons a t ih =>
    have ha : p a = true := hl a (by simp)
    simp only [List.cons_append, List.takeWhile_cons, ha, if_true]
    rw [ih (fun x hx => hl x (by simp [hx]))]

lemma dropWhile_append_of_all {p : Char → Bool} :
    ∀ (l : JStr) (c : Char) (r : JStr), (∀ x ∈ l, p x = true) → p c = false →
      (l ++ c :: r).dropWhile p = c :: r := by
  intro l c r hl hc
  induction l with
  | nil => simp [List.dropWhile, hc]
  | cons a t ih =>
    have ha : p a = true := hl a (by simp)
    simp only [List.cons_append, List.dropWhile_cons, ha, if_true]
    exact ih (fun x hx => hl x (by simp [hx]))

/-- A chunk property name determines both its logical key and its digit suffix:
the digit suffix holds no underscore, so the separating underscore is the last
underscore of the name. -/
lemma append_sep_digits_inj {k1 d1 k2 d2 : JStr}
    (h1 : ∀ c ∈ d1, c.isDigit = true) (h2 : ∀ c ∈ d2, c.isDigit = true)
    (h : k1 ++ '_' :: d1 = k2 ++ '_' :: d2) : k1 = k2 ∧ d1 = d2 := by
  have hrev : d1.reverse ++ '_' :: k1.reverse = d2.reverse ++ '_' :: k2.reverse := by
    have := congrArg List.reverse h
    simpa [List.reverse_append] using this
  have hp1 : ∀ x ∈ d1.reverse, (x != '_') = true := by
    intro x hx
    simpa using isDigit_ne_underscore (h1 x (List.mem_reverse.mp hx))
  have hp2 : ∀ x ∈ d2.reverse, (x != '_') = true := by
    intro x hx
    simpa using isDigit_ne_underscore (h2 x (List.mem_reverse.mp hx))
  have hu : (('_' : Char) != '_') = false := by decide
  have htake : d1.reverse = d2.reverse := by
    have t1 := takeWhile_append_of_all d1.reverse '_' k1.reverse hp1 hu
    have t2 := takeWhile_append_of_all d2.reverse '_' k2.reverse hp2 hu
    rw [← t1, ← t2, hrev]
  have hdrop : ('_' : Char) :: k1.reverse = '_' :: k2.reverse := by
    have t1 := dropWhile_append_of_all d1.reverse '_' k1.reverse hp1 hu
    have t2 := dropWhile_append_of_all d2.reverse '_' k2.reverse hp2 hu
    rw [← t1, ← t2, hrev]
  constructor
  · have : k1.reverse = k2.reverse := by
      simpa using hdrop
    exact List.reverse_injective this
  · exact List.reverse_injective htake

/-- Two distinct keys never share a matching chunk property name: the anchored,
escaped pattern is collision-free, even between keys where one is a prefix of the
other or keys containing underscores and digits. -/
lemma chunkPatternTest_unique_key {k1 k2 n : JStr}
    (h1 : chunkPatternTest k1 n = true) (h2 : chunkPatternTest k2 n = true) :
    k1 = k2 := by
  obtain ⟨d1, _, hdig1, rfl⟩ := chunkPatternTest_iff.mp h1
  obtain ⟨d2, _, hdig2, heq⟩ := chunkPatternTest_iff.mp h2
  exact (append_sep_digits_inj hdig2 hdig1 heq.symm).1.symm

lemma chunkPatternTest_ne_of_ne {k1 k2 n : JStr} (hne : k1 ≠ k2)
    (h1 : chunkPatternTest k1 n = true) : chunkPatternTest k2 n = false := by
  cases hcase : chunkPatternTest k2 n
  · rfl
  · exact absurd (chunkPatternTest_unique_key h1 hcase) hne

/-! ### Store lemmas -/

lemma ids_filter (s : Store) (p : JStr → Bool) :
    getDynamicPropertyIds (s.filter (fun e => p e.1))
      = (getDynamicPropertyIds s).filter p := by
  induction s with
  | nil => rfl
  | cons e t ih =>
    unfold getDynamicPropertyIds at *
    cases hp : p e.1 <;> simp [List.filter_cons, hp, ih]

lemma ids_append (s t : Store) :
    getDynamicPropertyIds (s ++ t)
      = getDynamicPropertyIds s ++ getDynamicPropertyIds t := by
  unfold getDynamicPropertyIds
  exact List.map_append Prod.fst s t

lemma foldl_remove_eq_filter :
    ∀ (ids : List JStr) (s : Store),
      ids.foldl (fun st id => setDynamicProperty st id none) s
        = s.filter (fun e => decide (e.1 ∉ ids)) := by
  intro ids
  induction ids with
  | nil =>
    intro s
    simp [List.filter_eq_self]
  | cons id rest ih =>
    intro s
    simp only [List.foldl_cons]
    rw [ih]
    show (s.filter fun e => e.1 != id).filter (fun e => decide (e.1 ∉ rest)) = _
    rw [List.filter_filter]
    apply List.filter_congr
    intro e _
    by_cases h1 : e.1 = id <;> by_cases h2 : e.1 ∈ rest <;> simp [h1, h2]

lemma jsDelete_eq_filter (s : Store) (key : JStr) :
    jsDelete s key = s.filter (fun e => !chunkPatternTest key e.1) := by
  unfold jsDelete
  rw [foldl_remove_eq_filter]
  apply List.filter_congr
  intro e he
  have hmem : e.1 ∈ getDynamicPropertyIds s := List.mem_map_of_mem Prod.fst he
  by_cases hc : chunkPatternTest key e.1 = true
  · have hin : e.1 ∈ getChunkIds s key := by
      unfold getChunkIds
      exact List.mem_filter.mpr ⟨hmem, hc⟩
    simp [hin, hc]
  · have hout : e.1 ∉ getChunkIds s key := by
      unfold getChunkIds
      intro hmem2
      exact hc (List.of_mem_filter hmem2)
    simp [hout, Bool.eq_false_iff.mpr hc]

lemma ids_jsDelete (s : Store) (key : JStr) :
    getDynamicPropertyIds (jsDelete s key)
      = (getDynamicPropertyIds s).filter (fun id => !chunkPatternTest key id) := by
  rw [jsDelete_eq_filter]
  exact ids_filter s (fun id => !chunkPatternTest key id)

lemma getChunkIds_jsDelete (s : Store) (key : JStr) :
    getChunkIds (jsDelete s key) key = [] := by
  unfold getChunkIds
  rw [ids_jsDelete, List.filter_filter]
  rw [List.filter_eq_nil_iff]
  intro id _
  cases chunkPatternTest key id <;> simp

lemma jsDelete_noop {s : Store} {key : JStr} (h : getChunkIds s key = []) :
    jsDelete s key = s := by
  unfold jsDelete
  rw [h]
  rfl

lemma chunkName_not_mem_jsDelete (s : Store) (key : JStr) (i : Nat) :
    chunkName key i ∉ getDynamicPropertyIds (jsDelete s key) := by
  rw [ids_jsDelete]
  intro hmem
  have := List.of_mem_filter hmem
  simp [chunkPatternTest_chunkName] at this

lemma setDynamicProperty_fresh {s : Store} {name : JStr} (w : PropValue)
    (h : name ∉ getDynamicPropertyIds s) :
    setDynamicProperty s name (some w) = s ++ [(name, w)] := by
  unfold setDynamicProperty
  have hany : s.any (fun e => e.1 == name) = false := by
    rw [List.any_eq_false]
    intro e he
    simp only [beq_iff_eq]
    intro heq
    exact h (heq ▸ List.mem_map_of_mem Prod.fst he)
  simp [hany]

lemma getDynamicProperty_append_of_not_mem_left {s t : Store} {name : JStr}
    (h : name ∉ getDynamicPropertyIds s) :
    getDynamicProperty (s ++ t) name = getDynamicProperty t name := by
  unfold getDynamicProperty
  rw [List.find?_append]
  have hnone : s.find? (fun e => e.1 == name) = none := by
    rw [List.find?_eq_none]
    intro e he
    simp only [beq_iff_eq]
    intro heq
    exact h (heq ▸ List.mem_map_of_mem Prod.fst he)
  rw [hnone, Option.none_or]

lemma getDynamicProperty_append_of_not_mem_right {s t : Store} {name : JStr}
    (h : name ∉ getDynamicPropertyIds t) :
    getDynamicProperty (s ++ t) name = getDynamicProperty s name := by
  unfold getDynamicProperty
  rw [List.find?_append]
  have hnone : t.find? (fun e => e.1 == name) = none := by
    rw [List.find?_eq_none]
    intro e he
    simp only [beq_iff_eq]
    intro heq
    exact h (heq ▸ List.mem_map_of_mem Prod.fst he)
  rw [hnone, Option.or_none]

lemma getDynamicProperty_filter_of_kept {s : Store} {p : (JStr × PropValue) → Bool}
    {name : JStr} (h : ∀ e ∈ s, e.1 = name → p e = true) :
    getDynamicProperty (s.filter p) name = getDynamicProperty s name := by
  unfold getDynamicProperty
  congr 1
  induction s with
  | nil => rfl
  | cons e t ih =>
    have ht : ∀ x ∈ t, x.1 = name → p x = true := fun x hx => h x (by simp [hx])
    by_cases hname : e.1 = name
    · have hp : p e = true := h e (by simp) hname
      rw [List.filter_cons_of_pos hp]
      simp [hname]
    · cases hp : p e
      · rw [List.filter_cons_of_neg (by simp [hp])]
        rw [ih ht]
        symm
        simp [hname]
      · rw [List.filter_cons_of_pos hp]
        have hpe : ¬ ((fun x : JStr × PropValue => x.1 == name) e = true) := by simp [hname]
        rw [@List.find?_cons_of_neg _ (fun x : JStr × PropValue => x.1 == name) e
              (List.filter p t) hpe,
            @List.find?_cons_of_neg _ (fun x : JStr × PropValue => x.1 == name) e t hpe]
        exact ih ht

/-! ### Split and join -/

lemma join_nil : join [] = [] := rfl

lemma foldl_append_acc :
    ∀ (l : List JStr) (a : JStr),
      l.foldl (fun d c => d ++ c) a = a ++ l.foldl (fun d c => d ++ c) [] := by
  intro l
  induction l with
  | nil => intro a; simp
  | cons c t ih =>
    intro a
    simp only [List.foldl_cons, List.nil_append]
    rw [ih (a ++ c), ih c, List.append_assoc]

lemma join_cons (c : JStr) (l : List JStr) : join (c :: l) = c ++ join l := by
  unfold join
  simp only [List.foldl_cons, List.nil_append]
  exact foldl_append_acc l c

lemma split_nil (m : Nat) : split m [] = [] := by
  rw [split]
  simp

lemma join_split {m : Nat} (hm : 1 ≤ m) : ∀ v : JStr, join (split m v) = v := by
  intro v
  induction v using split.induct m with
  | case1 v hcond =>
    simp only [Bool.or_eq_true, List.isEmpty_iff, beq_iff_eq] at hcond
    rcases hcond with h | h
    · rw [h, split_nil, join_nil]
    · omega
  | case2 v hcond ih =>
    rw [split, if_neg hcond, join_cons, ih]
    exact List.take_append_drop m v

lemma split_length {m : Nat} (hm : 1 ≤ m) :
    ∀ v : JStr, (split m v).length = (v.length + m - 1) / m := by
  intro v
  induction v using split.induct m with
  | case1 v hcond =>
    simp only [Bool.or_eq_true, List.isEmpty_iff, beq_iff_eq] at hcond
    rcases hcond with h | h
    · rw [h, split_nil]
      simp only [List.length_nil, Nat.zero_add]
      exact (Nat.div_eq_of_lt (by omega)).symm
    · omega
  | case2 v hcond ih =>
    rw [split, if_neg hcond]
    simp only [Bool.or_eq_true, List.isEmpty_iff, beq_iff_eq, not_or] at hcond
    have hv : 0 < v.length := List.length_pos.mpr hcond.1
    rw [List.length_cons, ih, List.length_drop]
    rcases Nat.le_total v.length m with hle | hle
    · have h1 : v.length - m = 0 := by omega
      have h2 : v.length + m - 1 = (v.length - 1) + m := by omega
      rw [h1, h2, Nat.add_div_right _ (by omega)]
      rw [Nat.div_eq_of_lt (by omega), Nat.div_eq_of_lt (by omega)]
    · have h2 : v.length + m - 1 = ((v.length - m) + m - 1) + m := by omega
      rw [h2, Nat.add_div_right _ (by omega)]

lemma split_ne_nil {m : Nat} {v : JStr} (hm : 1 ≤ m) (hv : v ≠ []) :
    split m v ≠ [] := by
  rw [split, if_neg (by simp [hv]; omega)]
  simp

/-! ### Writing chunks -/

lemma chunkEntries_mem {m : Nat} {key : JStr} :
    ∀ (rest : JStr) (i : Nat), ∀ e ∈ chunkEntries m key rest i,
      ∃ j c, i ≤ j ∧ e = (chunkName key j, PropValue.pstr c) := by
  intro rest i
  induction rest, i using chunkEntries.induct m key with
  | case1 rest i hcond =>
    intro e he
    rw [chunkEntries, if_pos hcond] at he
    simp at he
  | case2 rest i hcond ih =>
    intro e he
    rw [chunkEntries, if_neg hcond] at he
    rcases List.mem_cons.mp he with h | h
    · exact ⟨i, rest.take m, le_refl i, h⟩
    · obtain ⟨j, c, hj, hec⟩ := ih e h
      exact ⟨j, c, by omega, hec⟩

lemma chunkEntries_ids {m : Nat} {key : JStr} :
    ∀ (rest : JStr) (i : Nat),
      getDynamicPropertyIds (chunkEntries m key rest i)
        = (List.range' i (split m rest).length).map (chunkName key) := by
  intro rest i
  induction rest, i using chunkEntries.induct m key with
  | case1 rest i hcond =>
    rw [chunkEntries, if_pos hcond, split, if_pos hcond]
    rfl
  | case2 rest i hcond ih =>
    rw [chunkEntries, if_neg hcond, split, if_neg hcond]
    unfold getDynamicPropertyIds at *
    simp only [List.map_cons, List.length_cons, List.range'_succ, Nat.mul_one]
    rw [ih]

lemma chunkEntries_values {m : Nat} {key : JStr} :
    ∀ (rest : JStr) (i : Nat),
      (chunkEntries m key rest i).map (fun e => jsCoerce (some e.2)) = split m rest := by
  intro rest i
  induction rest, i using chunkEntries.induct m key with
  | case1 rest i hcond =>
    rw [chunkEntries, if_pos hcond, split, if_pos hcond]
    rfl
  | case2 rest i hcond ih =>
    rw [chunkEntries, if_neg hcond, split, if_neg hcond]
    rw [List.map_cons, ih]
    rfl

lemma setEncodedChunks_eq_append {m : Nat} {key : JStr} :
    ∀ (rest : JStr) (i : Nat) (s : Store),
      (∀ j, i ≤ j → chunkName key j ∉ getDynamicPropertyIds s) →
      setEncodedChunks m s key rest i = s ++ chunkEntries m key rest i := by
  intro rest i
  induction rest, i using chunkEntries.induct m key with
  | case1 rest i hcond =>
    intro s _
    rw [setEncodedChunks, if_pos hcond, chunkEntries, if_pos hcond, List.append_nil]
  | case2 rest i hcond ih =>
    intro s hfresh
    rw [setEncodedChunks, if_neg hcond, chunkEntries, if_neg hcond]
    rw [setDynamicProperty_fresh _ (hfresh i (le_refl i))]
    rw [ih _ ?_]
    · rw [List.append_assoc]
      rfl
    · intro j hj
      rw [ids_append]
      intro hmem
      rcases List.mem_append.mp hmem with h | h
      · exact hfresh j (by omega) h
      · simp only [getDynamicPropertyIds, List.map_cons, List.map_nil,
          List.mem_singleton] at h
        have := chunkName_injOn_index h
        omega

/-! ### Correctness of setEncoded and getEncoded -/

lemma setEncoded_eq_append (m : Nat) (s : Store) (key v : JStr) :
    setEncoded m s key v = jsDelete s key ++ chunkEntries m key v 0 := by
  unfold setEncoded
  exact setEncodedChunks_eq_append v 0 (jsDelete s key)
    (fun j _ => chunkName_not_mem_jsDelete s key j)

lemma getChunkIds_append_entries (m : Nat) (s : Store) (key v : JStr) :
    getChunkIds (jsDelete s key ++ chunkEntries m key v 0) key
      = getDynamicPropertyIds (chunkEntries m key v 0) := by
  unfold getChunkIds
  rw [ids_append, List.filter_append]
  have h1 : (getDynamicPropertyIds (jsDelete s key)).filter
      (fun propId => chunkPatternTest key propId) = [] :=
    getChunkIds_jsDelete s key
  have h2 : (getDynamicPropertyIds (chunkEntries m key v 0)).filter
      (fun propId => chunkPatternTest key propId)
        = getDynamicPropertyIds (chunkEntries m key v 0) := by
    apply List.filter_eq_self.mpr
    intro id hid
    rw [chunkEntries_ids] at hid
    obtain ⟨j, _, rfl⟩ := List.mem_map.mp hid
    exact chunkPatternTest_chunkName key j
  rw [h1, h2, List.nil_append]

lemma getChunkIds_setEncoded (m : Nat) (s : Store) (key v : JStr) :
    getChunkIds (setEncoded m s key v) key
      = (List.range' 0 (split m v).length).map (chunkName key) := by
  rw [setEncoded_eq_append, getChunkIds_append_entries, chunkEntries_ids]

lemma chunkEntries_ids_nodup (m : Nat) (key v : JStr) (i : Nat) :
    (getDynamicPropertyIds (chunkEntries m key v i)).Nodup := by
  rw [chunkEntries_ids]
  refine List.Nodup.map_on ?_ (List.nodup_range' _ _)
  intro x _ y _ hxy
  exact chunkName_injOn_index hxy

lemma foldl_lookup_entries :
    ∀ (l pre : Store) (a : JStr),
      (∀ e ∈ l, e.1 ∉ getDynamicPropertyIds pre) →
      (getDynamicPropertyIds l).Nodup →
      (getDynamicPropertyIds l).foldl
          (fun data id => data ++ jsCoerce (getDynamicProperty (pre ++ l) id)) a
        = a ++ join (l.map (fun e => jsCoerce (some e.2))) := by
  intro l
  induction l with
  | nil =>
    intro pre a _ _
    simp [join_nil, getDynamicPropertyIds]
  | cons e t ih =>
    intro pre a hdisj hnodup
    obtain ⟨nm, v⟩ := e
    have hids : getDynamicPropertyIds ((nm, v) :: t) = nm :: getDynamicPropertyIds t := rfl
    rw [hids] at hnodup ⊢
    rw [List.foldl_cons]
    have hget : getDynamicProperty (pre ++ (nm, v) :: t) nm = some v := by
      rw [getDynamicProperty_append_of_not_mem_left (hdisj (nm, v) (by simp))]
      unfold getDynamicProperty
      rw [List.find?_cons_of_pos _ (by simp)]
      rfl
    rw [hget]
    have hre : pre ++ (nm, v) :: t = (pre ++ [(nm, v)]) ++ t := by simp
    rw [hre]
    have hnodup' := List.nodup_cons.mp hnodup
    rw [ih (pre ++ [(nm, v)]) (a ++ jsCoerce (some v)) ?_ hnodup'.2]
    · rw [List.map_cons, join_cons, List.append_assoc]
    · intro x hx
      rw [ids_append]
      intro hmem
      rcases List.mem_append.mp hmem with h | h
      · exact hdisj x (by simp [hx]) h
      · simp only [getDynamicPropertyIds, List.map_cons, List.map_nil,
          List.mem_singleton] at h
        exact hnodup'.1 (h ▸ List.mem_map_of_mem Prod.fst hx)

lemma getEncoded_setEncoded {m : Nat} (hm : 1 ≤ m) (s : Store) (key v : JStr) :
    getEncoded (setEncoded m s key v) key = if v = [] then none else some v := by
  by_cases hv : v = []
  · subst hv
    rw [if_pos rfl]
    have hnil : setEncoded m s key [] = jsDelete s key := by
      unfold setEncoded
      rw [setEncodedChunks, if_pos (by simp)]
    rw [hnil]
    unfold getEncoded
    rw [getChunkIds_jsDelete]
    rfl
  · rw [if_neg hv, setEncoded_eq_append]
    unfold getEncoded
    rw [getChunkIds_append_entries]
    have hne : ¬ (getDynamicPropertyIds (chunkEntries m key v 0)).isEmpty = true := by
      rw [chunkEntries_ids]
      have := split_ne_nil hm hv
      cases hsp : split m v with
      | nil => exact absurd hsp this
      | cons c t => simp [List.range'_succ]
    rw [if_neg hne]
    rw [foldl_lookup_entries (chunkEntries m key v 0) (jsDelete s key) [] ?_
      (chunkEntries_ids_nodup m key v 0)]
    · rw [chunkEntries_values, List.nil_append, join_split hm]
    · intro e he
      obtain ⟨j, c, _, rfl⟩ := chunkEntries_mem v 0 e he
      exact chunkName_not_mem_jsDelete s key j

/-! ### Key isolation -/

lemma getChunkIds_jsDelete_other {s : Store} {key k2 : JStr} (hne : key ≠ k2) :
    getChunkIds (jsDelete s k2) key = getChunkIds s key := by
  unfold getChunkIds
  rw [ids_jsDelete, List.filter_filter]
  apply List.filter_congr
  intro id _
  by_cases h : chunkPatternTest key id = true
  · simp [h, chunkPatternTest_ne_of_ne hne h]
  · simp [Bool.eq_false_iff.mpr h]

lemma getDynamicProperty_jsDelete_other {s : Store} {key k2 id : JStr}
    (hid : chunkPatternTest key id = true) (hne : key ≠ k2) :
    getDynamicProperty (jsDelete s k2) id = getDynamicProperty s id := by
  rw [jsDelete_eq_filter]
  apply getDynamicProperty_filter_of_kept
  intro e _ hename
  rw [hename]
  simp [chunkPatternTest_ne_of_ne hne hid]

lemma foldl_coerce_congr :
    ∀ (ids : List JStr) (s1 s2 : Store) (a : JStr),
      (∀ id ∈ ids, getDynamicProperty s1 id = getDynamicProperty s2 id) →
      ids.foldl (fun d id => d ++ jsCoerce (getDynamicProperty s1 id)) a
        = ids.foldl (fun d id => d ++ jsCoerce (getDynamicProperty s2 id)) a := by
  intro ids
  induction ids with
  | nil => intro s1 s2 a _; rfl
  | cons id rest ih =>
    intro s1 s2 a h
    simp only [List.foldl_cons]
    rw [h id (by simp)]
    exact ih s1 s2 _ (fun x hx => h x (by simp [hx]))

lemma getEncoded_jsDelete_other {s : Store} {key k2 : JStr} (hne : key ≠ k2) :
    getEncoded (jsDelete s k2) key = getEncoded s key := by
  unfold getEncoded
  rw [getChunkIds_jsDelete_other hne]
  by_cases hemp : (getChunkIds s key).isEmpty = true
  · rw [if_pos hemp, if_pos hemp]
  · rw [if_neg hemp, if_neg hemp]
    congr 1
    apply foldl_coerce_congr
    intro id hid
    exact getDynamicProperty_jsDelete_other (List.of_mem_filter hid) hne

lemma chunkEntries_other_not_mem {m : Nat} {key k2 v : JStr} {id : JStr}
    (hid : chunkPatternTest key id = true) (hne : key ≠ k2) :
    id ∉ getDynamicPropertyIds (chunkEntries m k2 v 0) := by
  rw [chunkEntries_ids]
  intro hmem
  obtain ⟨j, _, rfl⟩ := List.mem_map.mp hmem
  have := chunkPatternTest_ne_of_ne hne hid
  rw [chunkPatternTest_chunkName] at this
  exact Bool.true_eq_false.mp this

lemma getChunkIds_setEncoded_other {m : Nat} {s : Store} {key k2 v : JStr}
    (hne : key ≠ k2) :
    getChunkIds (setEncoded m s k2 v) key = getChunkIds s key := by
  rw [setEncoded_eq_append]
  unfold getChunkIds
  rw [ids_append, List.filter_append]
  have h2 : (getDynamicPropertyIds (chunkEntries m k2 v 0)).filter
      (fun propId => chunkPatternTest key propId) = [] := by
    rw [List.filter_eq_nil_iff]
    intro id hid hmatch
    exact chunkEntries_other_not_mem hmatch hne hid
  rw [h2, List.append_nil]
  exact getChunkIds_jsDelete_other hne

lemma getDynamicProperty_setEncoded_other {m : Nat} {s : Store} {key k2 v id : JStr}
    (hid : chunkPatternTest key id = true) (hne : key ≠ k2) :
    getDynamicProperty (setEncoded m s k2 v) id = getDynamicProperty s id := by
  rw [setEncoded_eq_append]
  rw [getDynamicProperty_append_of_not_mem_right (chunkEntries_other_not_mem hid hne)]
  exact getDynamicProperty_jsDelete_other hid hne

lemma getEncoded_setEncoded_other {m : Nat} {s : Store} {key k2 v : JStr}
    (hne : key ≠ k2) :
    getEncoded (setEncoded m s k2 v) key = getEncoded s key := by
  unfold getEncoded
  rw [getChunkIds_setEncoded_other hne]
  by_cases hemp : (getChunkIds s key).isEmpty = true
  · rw [if_pos hemp, if_pos hemp]
  · rw [if_neg hemp, if_neg hemp]
    congr 1
    apply foldl_coerce_congr
    intro id hid
    exact getDynamicProperty_setEncoded_other (List.of_mem_filter hid) hne

/-! ### Keys -/

lemma lastIndexOfUnderscore_eq_none {d : JStr} (h : ∀ c ∈ d, c ≠ '_') :
    lastIndexOfUnderscore d = none := by
  induction d with
  | nil => rfl
  | cons c t ih =>
    unfold lastIndexOfUnderscore
    rw [ih (fun x hx => h x (by simp [hx]))]
    have hc : c ≠ '_' := h c (by simp)
    simp [hc]

lemma lastIndexOfUnderscore_append {l d : JStr} (h : ∀ c ∈ d, c ≠ '_') :
    lastIndexOfUnderscore (l ++ '_' :: d) = some l.length := by
  induction l with
  | nil =>
    rw [List.nil_append]
    unfold lastIndexOfUnderscore
    rw [lastIndexOfUnderscore_eq_none h]
    simp
  | cons c t ih =>
    rw [List.cons_append]
    unfold lastIndexOfUnderscore
    rw [ih]
    rfl

lemma firstOccurrences_nil : firstOccurrences [] = [] := by
  rw [firstOccurrences]

lemma firstOccurrences_cons (x : JStr) (xs : List JStr) :
    firstOccurrences (x :: xs) = x :: firstOccurrences (xs.filter (fun y => y != x)) := by
  rw [firstOccurrences]

lemma stripChunkSuffix_chunkName (key : JStr) (i : Nat) :
    stripChunkSuffix (chunkName key i) = some key := by
  unfold stripChunkSuffix chunkName
  rw [lastIndexOfUnderscore_append
    (fun c hc => isDigit_ne_underscore (natToDigits_all_digit c hc))]
  show some (List.take key.length (key ++ '_' :: natToDigits i)) = some key
  rw [List.take_left]

lemma jsKeysAux_eq :
    ∀ (l : List JStr) (seen : List JStr),
      jsKeysAux seen l
        = firstOccurrences
            ((l.filterMap stripChunkSuffix).filter (fun k => decide (k ∉ seen))) := by
  intro l
  induction l with
  | nil =>
    intro seen
    rw [List.filterMap_nil, List.filter_nil, firstOccurrences_nil]
    rfl
  | cons id rest ih =>
    intro seen
    unfold jsKeysAux
    cases hstrip : stripChunkSuffix id with
    | none => rw [List.filterMap_cons_none hstrip, ih]
    | some k =>
      rw [List.filterMap_cons_some hstrip]
      by_cases hseen : k ∈ seen
      · rw [List.filter_cons_of_neg (by simp [hseen])]
        simp only [hseen, if_true]
        exact ih seen
      · rw [List.filter_cons_of_pos (by simp [hseen])]
        simp only [hseen, if_false]
        rw [firstOccurrences_cons, ih (k :: seen), List.filter_filter]
        have hf : (List.filterMap stripChunkSuffix rest).filter
            (fun y => decide (y ∉ k :: seen))
              = (List.filterMap stripChunkSuffix rest).filter
                  (fun a => a != k && decide (a ∉ seen)) := by
          apply List.filter_congr
          intro y _
          by_cases hy : y = k <;> by_cases hys : y ∈ seen <;> simp [hy, hys]
        rw [hf]

lemma jsKeys_eq_firstOccurrences (s : Store) :
    jsKeys s
      = firstOccurrences ((getDynamicPropertyIds s).filterMap stripChunkSuffix) := by
  unfold jsKeys
  rw [jsKeysAux_eq]
  congr 1
  apply List.filter_eq_self.mpr
  intro k _
  simp

lemma mem_firstOccurrences : ∀ (l : List JStr) (a : JStr),
    a ∈ firstOccurrences l ↔ a ∈ l := by
  intro l
  induction l using firstOccurrences.induct with
  | case1 =>
    intro a
    rw [firstOccurrences_nil]
  | case2 x xs ih =>
    intro a
    rw [firstOccurrences_cons]
    by_cases ha : a = x
    · subst ha
      simp
    · simp only [List.mem_cons, ha, false_or]
      rw [ih a]
      simp [List.mem_filter, ha]

lemma nodup_firstOccurrences : ∀ l : List JStr, (firstOccurrences l).Nodup := by
  intro l
  induction l using firstOccurrences.induct with
  | case1 =>
    rw [firstOccurrences_nil]
    exact List.nodup_nil
  | case2 x xs ih =>
    rw [firstOccurrences_cons]
    refine List.nodup_cons.mpr ⟨?_, ih⟩
    rw [mem_firstOccurrences]
    intro hmem
    have := List.of_mem_filter hmem
    simp at this

/-! ### Cache lemmas -/

lemma find?_map_update (m : List (JStr × Nat)) (k : JStr) (v : Nat) :
    (m.map (fun e => if e.1 == k then (k, v) else e)).find? (fun e => e.1 == k)
      = if m.any (fun e => e.1 == k) then some (k, v) else none := by
  induction m with
  | nil => simp
  | cons e t ih =>
    by_cases he : e.1 = k
    · simp [he]
    · simp only [List.map_cons, List.any_cons]
      rw [if_neg (by simp [he])]
      rw [List.find?_cons_of_neg _ (by simp [he])]
      rw [ih]
      have hek : (e.1 == k) = false := by simp [he]
      simp only [hek, Bool.false_or]

lemma mapGet_mapSet_self (m : List (JStr × Nat)) (k : JStr) (v : Nat) :
    mapGet (mapSet m k v) k = some v := by
  unfold mapGet mapSet
  by_cases hany : m.any (fun e => e.1 == k) = true
  · rw [if_pos hany, find?_map_update, if_pos hany]
    rfl
  · rw [if_neg hany, List.find?_append]
    have hnone : m.find? (fun e => e.1 == k) = none := by
      rw [List.find?_eq_none]
      intro e he hk
      exact hany (List.any_eq_true.mpr ⟨e, he, hk⟩)
    rw [hnone, Option.none_or]
    rw [List.find?_cons_of_pos _ (by simp)]
    rfl

lemma mapGet_mapDelete_self (m : List (JStr × Nat)) (k : JStr) :
    mapGet (mapDelete m k) k = none := by
  unfold mapGet mapDelete
  have hnone : (m.filter (fun e => e.1 != k)).find? (fun e => e.1 == k) = none := by
    rw [List.find?_eq_none]
    intro e he
    have := List.of_mem_filter he
    simpa using this
  rw [hnone]
  rfl

lemma mapGet_lt_of_WF {st : CacheState} {k : JStr} {d : Nat}
    (h : CacheWF st) (hget : mapGet st.cache k = some d) : d < st.nextId := by
  unfold mapGet at hget
  cases hfind : st.cache.find? (fun e => e.1 == k) with
  | none =>
    rw [hfind] at hget
    exact Option.noConfusion hget
  | some e =>
    rw [hfind] at hget
    have hmem := List.mem_of_find?_eq_some hfind
    have := h e hmem
    have hd : e.2 = d := Option.some.inj hget
    omega

lemma docFrom_entity_eq (eid : JStr) (st : CacheState) :
    docFrom (.entity eid) st
      = match mapGet st.cache eid with
        | some d => (d, st)
        | none =>
            (st.nextId,
              { st with
                  cache := mapSet st.cache eid st.nextId
                  nextId := st.nextId + 1 }) := rfl

lemma docFrom_world_eq (st : CacheState) :
    docFrom .world st
      = match st.worldDoc with
        | some d => (d, st)
        | none => (st.nextId, { st with nextId := st.nextId + 1 }) := rfl

lemma mem_mapSet {m : List (JStr × Nat)} {k : JStr} {v : Nat} {e : JStr × Nat}
    (he : e ∈ mapSet m k v) : e ∈ m ∨ e = (k, v) := by
  unfold mapSet at he
  by_cases hany : m.any (fun x => x.1 == k) = true
  · rw [if_pos hany] at he
    obtain ⟨x, hx, hex⟩ := List.mem_map.mp he
    by_cases hxk : x.1 = k
    · rw [if_pos (by simp [hxk])] at hex
      exact Or.inr hex.symm
    · rw [if_neg (by simp [hxk])] at hex
      exact Or.inl (hex ▸ hx)
  · rw [if_neg hany] at he
    rcases List.mem_append.mp he with hx | hx
    · exact Or.inl hx
    · simp only [List.mem_singleton] at hx
      exact Or.inr hx

lemma docFrom_entity_WF {st : CacheState} {eid : JStr} (h : CacheWF st) :
    CacheWF (docFrom (.entity eid) st).2 := by
  rw [docFrom_entity_eq]
  cases hget : mapGet st.cache eid with
  | some d => exact h
  | none =>
    intro e he
    change e ∈ mapSet st.cache eid st.nextId at he
    change e.2 < st.nextId + 1
    rcases mem_mapSet he with hx | hx
    · have := h e hx
      omega
    · rw [hx]
      simp

/-! ## Claim theorems -/

/-- C1: Round-trip. Joining the chunks produced by splitting any string v with
any maxChunkSize n ≥ 1 yields v again; lifted to the store, for every starting
store, key and positive chunk size, setting a value whose encode step produced a
nonempty string e stores it so that reading the encoded value back returns
exactly e, and get after set returns a value equal to the original whenever the
decode step inverts the encode step on e — which covers the default JSON codec
pair and any matching custom codec pair. -/
theorem c1_round_trip :
    (∀ (n : Nat) (v : JStr), 1 ≤ n → join (split n v) = v) ∧
    (∀ (m : Nat) (s : Store) (key v : JStr), 1 ≤ m → v ≠ [] →
      getEncoded (setEncoded m s key v) key = some v) ∧
    (∀ (m : Nat) (stringify : JsValue → Option JStr) (parse : JStr → Option JsValue)
        (s : Store) (key : JStr) (value : JsValue)
        (encoder : Option (JsValue → JsValue)) (decoder : Option (JStr → JsValue))
        (e : JStr),
      1 ≤ m →
      jsEncode stringify encoder value = .vstr e →
      e ≠ [] →
      jsDecode parse decoder e = .ok value →
      jsGet parse (jsSet m stringify s key value encoder).2 key decoder
        = .ok (some value)) := by
  refine ⟨fun n v hn => join_split hn v, ?_, ?_⟩
  · intro m s key v hm hv
    rw [getEncoded_setEncoded hm, if_neg hv]
  · intro m stringify parse s key value encoder decoder e hm henc he hdec
    have hset : (jsSet m stringify s key value encoder).2 = setEncoded m s key e := by
      unfold jsSet
      rw [henc]
    rw [hset]
    unfold jsGet
    rw [getEncoded_setEncoded hm, if_neg he]
    show (jsDecode parse decoder e).map some = Except.ok (some value)
    rw [hdec]
    rfl

/-- Witness for C1: chunk size three, the four character string abcd stored under
key k on the empty store, with the identity codec pair. -/
theorem c1_round_trip_witness :
    join (split 3 ['a', 'b', 'c', 'd']) = ['a', 'b', 'c', 'd'] ∧
    getEncoded (setEncoded 3 [] ['k'] ['a', 'b', 'c', 'd']) ['k']
      = some ['a', 'b', 'c', 'd'] ∧
    jsGet (fun _ => none)
        (jsSet 3 (fun _ => none) [] ['k'] (.vstr ['a', 'b', 'c', 'd'])
          (some (fun v => v))).2 ['k'] (some (fun s => .vstr s))
      = .ok (some (.vstr ['a', 'b', 'c', 'd'])) :=
  ⟨c1_round_trip.1 3 ['a', 'b', 'c', 'd'] (by decide),
   c1_round_trip.2.1 3 [] ['k'] ['a', 'b', 'c', 'd'] (by decide) (by decide),
   c1_round_trip.2.2 3 (fun _ => none) (fun _ => none) [] ['k']
     (.vstr ['a', 'b', 'c', 'd']) (some (fun v => v)) (some (fun s => .vstr s))
     ['a', 'b', 'c', 'd'] (by decide) rfl (by decide) rfl⟩

/-- C2, counterexample: the claim says get concatenates matched chunks in
ascending numeric order of their suffix and not in the store enumeration order.
On a store that enumerates k_1 before k_0, getEncoded and get return the chunks
joined in enumeration order — BA — and not in ascending numeric order, which
would give AB: getChunkIds applies no sort to the filtered ids. -/
theorem c2_numeric_order_counterexample :
    getEncoded [(['k', '_', '1'], .pstr ['B']), (['k', '_', '0'], .pstr ['A'])] ['k']
        = some ['B', 'A']
    ∧ jsGet (fun _ => none)
        [(['k', '_', '1'], .pstr ['B']), (['k', '_', '0'], .pstr ['A'])]
        ['k'] (some (fun s => .vstr s))
        = .ok (some (.vstr ['B', 'A']))
    ∧ (['B', 'A'] : JStr) ≠ ['A', 'B'] := by
  refine ⟨by decide, ?_, by decide⟩
  rfl

/-- C2, amended: get concatenates the matched chunk properties in the order the
store enumerates them, with no sorting step; and immediately after any set the
matched ids are, in enumeration order, exactly key_0 .. key_(N-1) in ascending
numeric index order — so chunk key_10 is read after key_9 for data written by
set, because set writes the chunks in ascending index order onto a store that
appends new properties, not because get sorts. -/
theorem c2_enumeration_order :
    (∀ (s : Store) (key : JStr), getChunkIds s key ≠ [] →
      getEncoded s key
        = some ((getChunkIds s key).foldl
            (fun data id => data ++ jsCoerce (getDynamicProperty s id)) [])) ∧
    (∀ (m : Nat) (s : Store) (key v : JStr),
      getChunkIds (setEncoded m s key v) key
        = (List.range' 0 (split m v).length).map (chunkName key)) := by
  constructor
  · intro s key h
    unfold getEncoded
    rw [if_neg (by simpa using h)]
  · intro m s key v
    exact getChunkIds_setEncoded m s key v

/-- Witness for the amended C2: a one chunk store for the read shape, and a two
chunk write with chunk size one. -/
theorem c2_enumeration_order_witness :
    getEncoded [(['k', '_', '0'], .pstr ['A'])] ['k']
      = some ((getChunkIds [(['k', '_', '0'], .pstr ['A'])] ['k']).foldl
          (fun data id => data
            ++ jsCoerce (getDynamicProperty [(['k', '_', '0'], .pstr ['A'])] id)) [])
    ∧ getChunkIds (setEncoded 1 [] ['k'] ['a', 'b']) ['k']
        = (List.range' 0 (split 1 ['a', 'b']).length).map (chunkName ['k']) :=
  ⟨c2_enumeration_order.1 [(['k', '_', '0'], .pstr ['A'])] ['k'] (by decide),
   c2_enumeration_order.2 1 [] ['k'] ['a', 'b']⟩

/-- C3: chunk lifecycle. After a successful set of a value whose encoding is e,
the chunk properties matched for the key are exactly key_0 .. key_(N-1) with
N = ceil(length e / maxChunkSize) — zero chunks when e is empty, and no stale
chunk of any earlier, longer value survives, since the matched ids are exactly
this list. After delete, zero chunk properties for the key remain, and delete is
a no-op on the store when no chunk of the key exists. -/
theorem c3_chunk_lifecycle :
    (∀ (m : Nat) (stringify : JsValue → Option JStr) (s : Store) (key : JStr)
        (value : JsValue) (encoder : Option (JsValue → JsValue)) (e : JStr),
      1 ≤ m →
      jsEncode stringify encoder value = .vstr e →
      (jsSet m stringify s key value encoder).1 = none ∧
      getChunkIds (jsSet m stringify s key value encoder).2 key
        = (List.range ((e.length + m - 1) / m)).map (chunkName key)) ∧
    (∀ (s : Store) (key : JStr), getChunkIds (jsDelete s key) key = []) ∧
    (∀ (s : Store) (key : JStr), getChunkIds s key = [] → jsDelete s key = s) := by
  refine ⟨?_, getChunkIds_jsDelete, fun s key h => jsDelete_noop h⟩
  intro m stringify s key value encoder e hm henc
  have hset : jsSet m stringify s key value encoder = (none, setEncoded m s key e) := by
    unfold jsSet
    rw [henc]
  rw [hset]
  refine ⟨rfl, ?_⟩
  show getChunkIds (setEncoded m s key e) key = _
  rw [getChunkIds_setEncoded, split_length hm, List.range_eq_range']

/-- Witness for C3: a two chunk write (four characters at chunk size three), a
one chunk delete, and a delete on the empty store. -/
theorem c3_chunk_lifecycle_witness :
    ((jsSet 3 (fun _ => none) [] ['k'] .vnull
          (some (fun _ => .vstr ['a', 'b', 'c', 'd']))).1 = none ∧
      getChunkIds (jsSet 3 (fun _ => none) [] ['k'] .vnull
            (some (fun _ => .vstr ['a', 'b', 'c', 'd']))).2 ['k']
        = (List.range (((['a', 'b', 'c', 'd'] : JStr).length + 3 - 1) / 3)).map
            (chunkName ['k']))
    ∧ getChunkIds (jsDelete [(['k', '_', '0'], .pstr ['x'])] ['k']) ['k'] = []
    ∧ jsDelete [] ['k'] = [] :=
  ⟨c3_chunk_lifecycle.1 3 (fun _ => none) [] ['k'] .vnull
      (some (fun _ => .vstr ['a', 'b', 'c', 'd'])) ['a', 'b', 'c', 'd']
      (by decide) rfl,
   c3_chunk_lifecycle.2.1 [(['k', '_', '0'], .pstr ['x'])] ['k'],
   c3_chunk_lifecycle.2.2 [] ['k'] rfl⟩

/-- C4: key isolation. Two distinct keys never share a matching chunk property
name — in particular a key that is a prefix of another, since the escaped
pattern anchors on the full key before the separator — and consequently set and
delete on one key never change what get observes for any other key, regardless
of order. -/
theorem c4_key_isolation :
    (∀ (k1 k2 n : JStr), k1 ≠ k2 →
      ¬(chunkPatternTest k1 n = true ∧ chunkPatternTest k2 n = true)) ∧
    (∀ (m : Nat) (s : Store) (k1 k2 v : JStr), k1 ≠ k2 →
      getEncoded (setEncoded m s k2 v) k1 = getEncoded s k1
        ∧ getEncoded (jsDelete s k2) k1 = getEncoded s k1) := by
  constructor
  · rintro k1 k2 n hne ⟨h1, h2⟩
    exact hne (chunkPatternTest_unique_key h1 h2)
  · intro m s k1 k2 v hne
    exact ⟨getEncoded_setEncoded_other hne, getEncoded_jsDelete_other hne⟩

/-- Witness for C4 on the prefix pair a and ab from the specification. -/
theorem c4_key_isolation_witness :
    ¬(chunkPatternTest ['a'] ['a', 'b', '_', '1'] = true
        ∧ chunkPatternTest ['a', 'b'] ['a', 'b', '_', '1'] = true) ∧
    (getEncoded (setEncoded 3 [(['a', '_', '0'], .pstr ['x'])] ['a', 'b'] ['y']) ['a']
        = getEncoded [(['a', '_', '0'], .pstr ['x'])] ['a']
      ∧ getEncoded (jsDelete [(['a', '_', '0'], .pstr ['x'])] ['a', 'b']) ['a']
        = getEncoded [(['a', '_', '0'], .pstr ['x'])] ['a']) :=
  ⟨c4_key_isolation.1 ['a'] ['a', 'b'] ['a', 'b', '_', '1'] (by decide),
   c4_key_isolation.2 3 [(['a', '_', '0'], .pstr ['x'])] ['a'] ['a', 'b'] ['y']
     (by decide)⟩

/-- C5, counterexample: key k has one matched chunk k_0 holding the boolean
true, a non-string raw value. get does not raise anything: the reduce inside
getEncoded coerces the boolean with string concatenation, so get receives the
joined string true and returns the decoded value to its caller. -/
theorem c5_non_string_chunk_counterexample :
    getEncoded [(['k', '_', '0'], .pbool true)] ['k'] = some ['t', 'r', 'u', 'e']
    ∧ jsGet (fun _ => none) [(['k', '_', '0'], .pbool true)] ['k']
        (some (fun s => .vstr s))
        = .ok (some (.vstr ['t', 'r', 'u', 'e'])) :=
  ⟨by decide, rfl⟩

lemma jsDecode_ne_expectedString (parse : JStr → Option JsValue)
    (decoder : Option (JStr → JsValue)) (e : JStr) :
    jsDecode parse decoder e ≠ .error .expectedString := by
  unfold jsDecode
  by_cases hn :
      isNullish (match decoder with | some d => d e | none => JsValue.vundef) = true
  · rw [if_pos hn]
    cases parse e with
    | some v => simp
    | none => simp
  · rw [if_neg hn]
    simp

lemma jsGet_ne_expectedString (parse : JStr → Option JsValue) (s : Store)
    (key : JStr) (decoder : Option (JStr → JsValue)) :
    jsGet parse s key decoder ≠ .error .expectedString := by
  unfold jsGet
  cases hge : getEncoded s key with
  | none => simp
  | some e =>
    show Except.map some (jsDecode parse decoder e) ≠ Except.error GetError.expectedString
    intro hcontra
    apply jsDecode_ne_expectedString parse decoder e
    cases hdec : jsDecode parse decoder e with
    | ok v =>
      rw [hdec] at hcontra
      exact absurd hcontra (fun hh => Except.noConfusion hh)
    | error ge =>
      rw [hdec] at hcontra
      have hge2 : ge = GetError.expectedString := Except.error.inj hcontra
      rw [hge2]

/-- C5, amended: when the key has at least one matched chunk, get does not raise
an expected-string error even when the store returns non-string raw values:
getEncoded always produces a string, every raw value being coerced by the string
concatenation of the reduce (whose seed is a string), and get decodes that
joined string normally. No execution of get returns the expected-string error. -/
theorem c5_non_string_chunk_coerced :
    (∀ (s : Store) (key : JStr), getChunkIds s key ≠ [] →
      ∃ e : JStr, getEncoded s key = some e ∧
        ∀ (parse : JStr → Option JsValue) (decoder : Option (JStr → JsValue)),
          jsGet parse s key decoder = (jsDecode parse decoder e).map some) ∧
    (∀ (parse : JStr → Option JsValue) (s : Store) (key : JStr)
        (decoder : Option (JStr → JsValue)),
      jsGet parse s key decoder ≠ .error .expectedString) := by
  refine ⟨?_, jsGet_ne_expectedString⟩
  intro s key h
  refine ⟨(getChunkIds s key).foldl
      (fun data id => data ++ jsCoerce (getDynamicProperty s id)) [], ?_, ?_⟩
  · unfold getEncoded
    rw [if_neg (by simpa using h)]
  · intro parse decoder
    unfold jsGet getEncoded
    rw [if_neg (by simpa using h)]

/-- Witness for the amended C5 at the non-string store of the counterexample
shape, with a boolean raw chunk value. -/
theorem c5_non_string_chunk_coerced_witness :
    (∃ e : JStr, getEncoded [(['k', '_', '0'], .pbool false)] ['k'] = some e ∧
      ∀ (parse : JStr → Option JsValue) (decoder : Option (JStr → JsValue)),
        jsGet parse [(['k', '_', '0'], .pbool false)] ['k'] decoder
          = (jsDecode parse decoder e).map some) ∧
    jsGet (fun _ => none) [(['k', '_', '0'], .pbool false)] ['k'] none
      ≠ .error .expectedString :=
  ⟨c5_non_string_chunk_coerced.1 [(['k', '_', '0'], .pbool false)] ['k'] (by decide),
   c5_non_string_chunk_coerced.2 (fun _ => none) [(['k', '_', '0'], .pbool false)]
     ['k'] none⟩

/-- C6: atomicity of set on encode failure. Whenever the encode step does not
produce a string, set raises the encode error synchronously and returns with the
store completely unchanged: no chunk is written and no existing chunk of the key
is deleted, because the throw happens before setEncoded runs. -/
theorem c6_set_atomic_on_encode_error
    (m : Nat) (stringify : JsValue → Option JStr) (s : Store) (key : JStr)
    (value : JsValue) (encoder : Option (JsValue → JsValue))
    (h : ∀ e : JStr, jsEncode stringify encoder value ≠ .vstr e) :
    jsSet m stringify s key value encoder = (some .encodeError, s) := by
  unfold jsSet
  cases henc : jsEncode stringify encoder value with
  | vstr e => exact absurd henc (h e)
  | vnum n => rfl
  | vbool b => rfl
  | vnull => rfl
  | vundef => rfl

/-- Witness for C6: an encoder returning a boolean leaves the one-entry store
untouched and reports the encode error. -/
theorem c6_set_atomic_on_encode_error_witness :
    jsSet 3 (fun _ => none) [(['a'], .pstr ['x'])] ['k'] .vnull
        (some (fun _ => .vbool true))
      = (some .encodeError, [(['a'], .pstr ['x'])]) :=
  c6_set_atomic_on_encode_error 3 (fun _ => none) [(['a'], .pstr ['x'])] ['k']
    .vnull (some (fun _ => .vbool true)) (fun _ h => JsValue.noConfusion h)

/-- C7: empty-value edge case. A set whose value encodes to the empty string
writes zero chunk properties — the store ends exactly as after the delete step
alone — zero chunks match the key afterwards, and a subsequent get returns
absent, indistinguishable from the key never having been set. -/
theorem c7_empty_value_absent
    (m : Nat) (stringify : JsValue → Option JStr) (s : Store) (key : JStr)
    (value : JsValue) (encoder : Option (JsValue → JsValue))
    (henc : jsEncode stringify encoder value = .vstr []) :
    jsSet m stringify s key value encoder = (none, jsDelete s key) ∧
    getChunkIds (jsDelete s key) key = [] ∧
    (∀ (parse : JStr → Option JsValue) (decoder : Option (JStr → JsValue)),
      jsGet parse (jsSet m stringify s key value encoder).2 key decoder
        = .ok none) := by
  have hnil : setEncoded m s key [] = jsDelete s key := by
    unfold setEncoded
    rw [setEncodedChunks, if_pos (by simp)]
  have hset : jsSet m stringify s key value encoder = (none, jsDelete s key) := by
    unfold jsSet
    rw [henc]
    show ((none : Option SetError), setEncoded m s key []) = (none, jsDelete s key)
    rw [hnil]
  refine ⟨hset, getChunkIds_jsDelete s key, ?_⟩
  intro parse decoder
  rw [hset]
  unfold jsGet
  have hge : getEncoded (jsDelete s key) key = none := by
    unfold getEncoded
    rw [getChunkIds_jsDelete]
    rfl
  rw [hge]

/-- Witness for C7: a custom encoder producing the empty string on a store that
already holds one chunk of the key. -/
theorem c7_empty_value_absent_witness :
    jsSet 3 (fun _ => none) [(['k', '_', '0'], .pstr ['x'])] ['k'] .vnull
        (some (fun _ => .vstr []))
      = (none, jsDelete [(['k', '_', '0'], .pstr ['x'])] ['k'])
    ∧ getChunkIds (jsDelete [(['k', '_', '0'], .pstr ['x'])] ['k']) ['k'] = []
    ∧ jsGet (fun _ => none)
        (jsSet 3 (fun _ => none) [(['k', '_', '0'], .pstr ['x'])] ['k'] .vnull
          (some (fun _ => .vstr []))).2 ['k'] none = .ok none := by
  obtain ⟨h1, h2, h3⟩ := c7_empty_value_absent 3 (fun _ => none)
    [(['k', '_', '0'], .pstr ['x'])] ['k'] .vnull (some (fun _ => .vstr [])) rfl
  exact ⟨h1, h2, h3 (fun _ => none) none⟩

/-- C8: keys() yields each distinct logical key exactly once — the list it
produces is exactly the first occurrences, in store enumeration order, of the
keys obtained from each raw property name by stripping everything from the last
underscore on (names without an underscore are skipped); the result has no
duplicates, a key is yielded exactly when some raw name strips to it, and
stripping a chunk property name key_i recovers exactly its key, whatever
characters the key itself holds. The list is recomputed as a function of the
current store state. -/
theorem c8_keys_distinct_stripped :
    (∀ s : Store,
      jsKeys s
        = firstOccurrences ((getDynamicPropertyIds s).filterMap stripChunkSuffix)) ∧
    (∀ s : Store, (jsKeys s).Nodup) ∧
    (∀ (s : Store) (k : JStr),
      k ∈ jsKeys s ↔ ∃ id ∈ getDynamicPropertyIds s, stripChunkSuffix id = some k) ∧
    (∀ (key : JStr) (i : Nat), stripChunkSuffix (chunkName key i) = some key) := by
  refine ⟨jsKeys_eq_firstOccurrences, ?_, ?_, stripChunkSuffix_chunkName⟩
  · intro s
    rw [jsKeys_eq_firstOccurrences]
    exact nodup_firstOccurrences _
  · intro s k
    rw [jsKeys_eq_firstOccurrences, mem_firstOccurrences, List.mem_filterMap]

lemma docFrom_entity_hit {st : CacheState} {eid : JStr} {d : Nat}
    (h : mapGet st.cache eid = some d) : docFrom (.entity eid) st = (d, st) := by
  rw [docFrom_entity_eq, h]

lemma docFrom_entity_miss {st : CacheState} {eid : JStr}
    (h : mapGet st.cache eid = none) :
    docFrom (.entity eid) st
      = (st.nextId,
          { st with
              cache := mapSet st.cache eid st.nextId
              nextId := st.nextId + 1 }) := by
  rw [docFrom_entity_eq, h]

/-- C9: cache identity. A second from call for the same entity id returns the
very instance and state of the first call; once the world document constant is
assigned, from with the world owner always returns that same permanent
instance — module initialization establishes it; and after the eviction handler
runs for an entity id, the next from call for that id returns a fresh instance,
different from the evicted one (on any well-formed cache state, in particular
every state reachable from module initialization). -/
theorem c9_cache_identity :
    (∀ (st : CacheState) (eid : JStr),
      docFrom (.entity eid) (docFrom (.entity eid) st).2
        = docFrom (.entity eid) st) ∧
    (∀ (st : CacheState) (w : Nat), st.worldDoc = some w →
      docFrom .world st = (w, st)) ∧
    (∃ w : Nat, moduleInit.worldDoc = some w
      ∧ docFrom .world moduleInit = (w, moduleInit)) ∧
    (∀ (st : CacheState) (eid : JStr), CacheWF st →
      (docFrom (.entity eid) (evictEntity eid (docFrom (.entity eid) st).2)).1
        ≠ (docFrom (.entity eid) st).1) := by
  refine ⟨?_, ?_, ⟨0, rfl, rfl⟩, ?_⟩
  · intro st eid
    cases hget : mapGet st.cache eid with
    | some d =>
      rw [docFrom_entity_hit hget]
      show docFrom (.entity eid) st = (d, st)
      exact docFrom_entity_hit hget
    | none =>
      rw [docFrom_entity_miss hget]
      apply docFrom_entity_hit
      exact mapGet_mapSet_self st.cache eid st.nextId
  · intro st w h
    rw [docFrom_world_eq, h]
  · intro st eid hwf
    cases hget : mapGet st.cache eid with
    | some d =>
      rw [docFrom_entity_hit hget]
      show (docFrom (.entity eid) (evictEntity eid st)).1 ≠ d
      rw [docFrom_entity_miss (mapGet_mapDelete_self st.cache eid)]
      show st.nextId ≠ d
      have hd := mapGet_lt_of_WF hwf hget
      omega
    | none =>
      rw [docFrom_entity_miss hget]
      generalize hst1 : ({ st with
          cache := mapSet st.cache eid st.nextId
          nextId := st.nextId + 1 } : CacheState) = st1
      show (docFrom (.entity eid) (evictEntity eid st1)).1 ≠ st.nextId
      rw [docFrom_entity_miss (mapGet_mapDelete_self st1.cache eid)]
      have hnx : st1.nextId = st.nextId + 1 := by rw [← hst1]
      show st1.nextId ≠ st.nextId
      omega

/-- Witness for C9: the initial state after module initialization, with entity
id e. -/
theorem c9_cache_identity_witness :
    docFrom .world moduleInit = (0, moduleInit) ∧
    (docFrom (.entity ['e'])
        (evictEntity ['e'] (docFrom (.entity ['e']) moduleInit).2)).1
      ≠ (docFrom (.entity ['e']) moduleInit).1 :=
  ⟨c9_cache_identity.2.1 moduleInit 0 rfl,
   c9_cache_identity.2.2.2 moduleInit ['e']
     (fun e he => absurd he (List.not_mem_nil e))⟩

/-- C10: implicit nullish-codec fallback. When a supplied custom decoder returns
a nullish value on the joined string, get behaves exactly as if no decoder had
been supplied — it falls back to parsing the joined string; symmetrically, when
a supplied custom encoder returns a nullish value, set behaves exactly as with
no encoder — no encode error is raised when the default stringify produces a
string, which is then written. -/
theorem c10_nullish_codec_fallback :
    (∀ (parse : JStr → Option JsValue) (s : Store) (key : JStr)
        (dec : JStr → JsValue) (e : JStr),
      getEncoded s key = some e → isNullish (dec e) = true →
      jsGet parse s key (some dec) = jsGet parse s key none) ∧
    (∀ (m : Nat) (stringify : JsValue → Option JStr) (s : Store) (key : JStr)
        (value : JsValue) (enc : JsValue → JsValue),
      isNullish (enc value) = true →
      jsSet m stringify s key value (some enc)
        = jsSet m stringify s key value none) ∧
    (∀ (m : Nat) (stringify : JsValue → Option JStr) (s : Store) (key : JStr)
        (value : JsValue) (enc : JsValue → JsValue) (e : JStr),
      isNullish (enc value) = true → stringify value = some e →
      jsSet m stringify s key value (some enc) = (none, setEncoded m s key e)) := by
  refine ⟨?_, ?_, ?_⟩
  · intro parse s key dec e hge hnull
    unfold jsGet
    rw [hge]
    show Except.map some (jsDecode parse (some dec) e)
      = Except.map some (jsDecode parse none e)
    unfold jsDecode
    simp only [isNullish] at hnull
    simp [hnull, isNullish]
  · intro m stringify s key value enc hnull
    unfold jsSet jsEncode
    simp [hnull]
  · intro m stringify s key value enc e hnull hstr
    unfold jsSet jsEncode
    simp [hnull, hstr]

/-- Witness for C10: a decoder returning undefined on a one-chunk store, an
encoder returning null, and the stringify collaborator producing the string y. -/
theorem c10_nullish_codec_fallback_witness :
    jsGet (fun _ => some .vnull) [(['k', '_', '0'], .pstr ['x'])] ['k']
        (some (fun _ => .vundef))
      = jsGet (fun _ => some .vnull) [(['k', '_', '0'], .pstr ['x'])] ['k'] none
    ∧ jsSet 3 (fun _ => some ['y']) [] ['k'] .vnull (some (fun _ => .vnull))
        = jsSet 3 (fun _ => some ['y']) [] ['k'] .vnull none
    ∧ jsSet 3 (fun _ => some ['y']) [] ['k'] .vnull (some (fun _ => .vnull))
        = (none, setEncoded 3 [] ['k'] ['y']) :=
  ⟨c10_nullish_codec_fallback.1 (fun _ => some .vnull)
      [(['k', '_', '0'], .pstr ['x'])] ['k'] (fun _ => .vundef) ['x'] (by decide) rfl,
   c10_nullish_codec_fallback.2.1 3 (fun _ => some ['y']) [] ['k'] .vnull
     (fun _ => .vnull) rfl,
   c10_nullish_codec_fallback.2.2 3 (fun _ => some ['y']) [] ['k'] .vnull
     (fun _ => .vnull) ['y'] rfl rfl⟩

end McbeDatabase
